import Mathlib

/-!
# Verification of the adaptive spaced-repetition and mastery-scheduling engine

A shallow embedding of the scheduling/progression core of
`src/ai_learning_app.py` (class `AILearningApp`), together with proofs and
refutations of the specification's claims about it.

Modelling conventions:
* Python floats on the mastery/strength scales are modelled as `ℚ`; every
  value the code manipulates on these scales is a small dyadic rational
  (steps of 1, 0.5, 0.7, 0.4), so no floating-point rounding is involved
  in the claims under study.
* Calendar dates (ISO `YYYY-MM-DD` strings, compared with `==`/`<`, which
  on ISO strings agrees with date order) are modelled as `ℤ` day numbers;
  `None`/missing dates as `Option ℤ`.
* Dictionaries keyed by topic or question id are modelled by the per-key
  projection (the operations under study read and write a single key), or
  by association lists where several keys interact.
* UI side effects (`messagebox` calls) and the write-through `save_data`
  persistence flush are not state of the engine; `save_data`'s one piece of
  engine logic, the `personal_bests['longest_streak']` update, is modelled
  explicitly (`save_data_bests`).
-/

namespace AiLearningApp

/-! ## Topic mastery and spaced repetition (`update_spaced_repetition`,
`check_spaced_repetition`, source lines 786-811) -/

/-- The mastery update rule of `update_spaced_repetition`:
`performance_score >= 0.8` promotes (`min(5, mastery + 1)`),
`0.6 <= performance_score < 0.8` mildly decays (`max(0, mastery - 0.5)`),
`performance_score < 0.6` demotes (`max(0, mastery - 1)`). -/
def updateMastery (mastery score : ℚ) : ℚ :=
  if 8/10 ≤ score then min 5 (mastery + 1)
  else if 6/10 ≤ score then max 0 (mastery - 1/2)
  else max 0 (mastery - 1)

/-- `[1, 3, 7, 14, 30, 60][min(int(mastery), 5)]` from
`update_spaced_repetition`.  For the values the code reaches (mastery is
always ≥ 0 there) Python's `int` truncation is the floor and the index lies
in `[0, 5]`. -/
def daysUntilReview (mastery : ℚ) : ℕ :=
  [1, 3, 7, 14, 30, 60].getD (min (⌊mastery⌋.toNat) 5) 1

/-- The per-topic slice of the scheduler state: `mastery_levels[topic]`
(a `defaultdict(int)`, so a fresh topic reads as 0) and
`review_schedule[topic]` (absent until first computed). -/
structure TopicSched where
  mastery : ℚ
  nextReview : Option ℤ
deriving Repr, DecidableEq

/-- The topic slice that has never been updated: mastery defaults to 0 and
no review date is stored. -/
def initTopicSched : TopicSched := { mastery := 0, nextReview := none }

/-- `update_spaced_repetition(topic_num, performance_score)` on the given
topic's slice, today being day `today`: update mastery, then store
`today + days_until_review` as the next review date. -/
def update_spaced_repetition (st : TopicSched) (score : ℚ) (today : ℤ) : TopicSched :=
  let m := updateMastery st.mastery score
  { mastery := m, nextReview := some (today + daysUntilReview m) }

/-- `check_spaced_repetition(topic_num)`: due when no review date is stored,
or when today has reached the stored date. -/
def check_spaced_repetition (st : TopicSched) (today : ℤ) : Bool :=
  match st.nextReview with
  | none => true
  | some d => decide (d ≤ today)

/-- Mastery of a topic after a sequence of `update_spaced_repetition` calls
with the given performance scores, starting from the initial value 0. -/
def masteryAfter (scores : List ℚ) : ℚ :=
  scores.foldl updateMastery 0

lemma updateMastery_nonneg (m s : ℚ) (hm : 0 ≤ m) : 0 ≤ updateMastery m s := by
  unfold updateMastery
  split
  · exact le_min (by norm_num) (by linarith)
  · split <;> exact le_max_left 0 _

lemma updateMastery_le_five (m s : ℚ) (hm : m ≤ 5) : updateMastery m s ≤ 5 := by
  unfold updateMastery
  split
  · exact min_le_left 5 _
  · split <;> exact max_le (by norm_num) (by linarith)

lemma foldl_updateMastery_bounds (l : List ℚ) :
    ∀ m : ℚ, 0 ≤ m → m ≤ 5 → 0 ≤ l.foldl updateMastery m ∧ l.foldl updateMastery m ≤ 5 := by
  induction l with
  | nil => intro m h0 h5; exact ⟨h0, h5⟩
  | cons s t ih =>
      intro m h0 h5
      exact ih _ (updateMastery_nonneg m s h0) (updateMastery_le_five m s h5)

/-- Claim C1: for every sequence of `update_spaced_repetition` calls with
performance scores in `[0, 1]`, a topic's mastery stays within `[0, 5]`
after every call, starting from the initial value 0.  (Every prefix of an
admissible score sequence is quantified over explicitly.) -/
theorem mastery_bounds_invariant (scores : List ℚ)
    (hscores : ∀ s ∈ scores, 0 ≤ s ∧ s ≤ 1) :
    ∀ p : List ℚ, p <+: scores → 0 ≤ masteryAfter p ∧ masteryAfter p ≤ 5 := by
  intro p _
  exact foldl_updateMastery_bounds p 0 le_rfl (by norm_num)

/-- Witness for C1: the concrete run `[0.9, 0.7, 0.3]` and its prefix
`[0.9, 0.7]` stay within bounds. -/
theorem mastery_bounds_invariant_witness :
    0 ≤ masteryAfter [9/10, 7/10] ∧ masteryAfter [9/10, 7/10] ≤ 5 :=
  mastery_bounds_invariant [9/10, 7/10, 3/10]
    (by intro s hs; fin_cases hs <;> norm_num)
    [9/10, 7/10] ⟨[3/10], rfl⟩

/-- Claim C2: a single `update_spaced_repetition(topic, s)` call applies the
three-band mastery rule, then schedules the next review
`[1, 3, 7, 14, 30, 60][floor(mastery) clamped to [0,5]]` days ahead; a topic
starting unreviewed that scores 0.9 gets mastery 1 and next review
`today + 3`, is not due for the next 3 days and is due on day 4
(`today + 3` being the fourth day counting today as the first). -/
theorem update_spaced_repetition_spec (st : TopicSched) (s : ℚ) (today : ℤ)
    (hm : 0 ≤ st.mastery) :
    ((8/10 ≤ s → updateMastery st.mastery s = min 5 (st.mastery + 1)) ∧
     (6/10 ≤ s → s < 8/10 → updateMastery st.mastery s = max 0 (st.mastery - 1/2)) ∧
     (s < 6/10 → updateMastery st.mastery s = max 0 (st.mastery - 1))) ∧
    (update_spaced_repetition st s today).nextReview =
      some (today +
        ([1, 3, 7, 14, 30, 60].getD (max 0 (min 5 ⌊updateMastery st.mastery s⌋)).toNat 1 : ℕ)) ∧
    (check_spaced_repetition initTopicSched today = true ∧
     (update_spaced_repetition initTopicSched (9/10) today).mastery = 1 ∧
     (update_spaced_repetition initTopicSched (9/10) today).nextReview = some (today + 3) ∧
     (∀ d : ℤ, 0 ≤ d → d < 3 →
        check_spaced_repetition (update_spaced_repetition initTopicSched (9/10) today) (today + d)
          = false) ∧
     check_spaced_repetition (update_spaced_repetition initTopicSched (9/10) today) (today + 3)
       = true) := by
  have hday : ∀ m : ℚ, 0 ≤ m →
      daysUntilReview m = [1, 3, 7, 14, 30, 60].getD (max 0 (min 5 ⌊m⌋)).toNat 1 := by
    intro m h0
    have hfl : (0 : ℤ) ≤ ⌊m⌋ := Int.le_floor.mpr (by exact_mod_cast h0)
    unfold daysUntilReview
    congr 1
    omega
  have hm1 : updateMastery 0 (9/10) = 1 := by
    unfold updateMastery
    rw [if_pos (by norm_num)]
    norm_num
  refine ⟨⟨?_, ?_, ?_⟩, ?_, ?_, ?_, ?_, ?_, ?_⟩
  · intro h; unfold updateMastery; rw [if_pos h]
  · intro h1 h2; unfold updateMastery; rw [if_neg (by linarith), if_pos h1]
  · intro h; unfold updateMastery; rw [if_neg (by linarith), if_neg (by linarith)]
  · show some (today + (daysUntilReview (updateMastery st.mastery s) : ℕ)) = _
    rw [hday _ (updateMastery_nonneg _ _ hm)]
  · rfl
  · show updateMastery 0 (9/10) = 1
    exact hm1
  · show some (today + (daysUntilReview (updateMastery 0 (9/10)) : ℕ)) = some (today + 3)
    rw [hm1]; rfl
  · intro d hd0 hd3
    show (match some (today + (daysUntilReview (updateMastery 0 (9/10)) : ℕ)) with
          | none => true
          | some x => decide (x ≤ today + d)) = false
    rw [hm1]
    show decide (today + (3 : ℕ) ≤ today + d) = false
    simp only [decide_eq_false_iff_not, not_le]
    omega
  · show (match some (today + (daysUntilReview (updateMastery 0 (9/10)) : ℕ)) with
          | none => true
          | some x => decide (x ≤ today + 3)) = true
    rw [hm1]
    show decide (today + (3 : ℕ) ≤ today + 3) = true
    simp

/-- Witness for C2: the single-call facts instantiated at the fresh topic
slice, score 0.9, on day 0. -/
theorem update_spaced_repetition_spec_witness :
    ((8/10 ≤ (9/10 : ℚ) →
        updateMastery initTopicSched.mastery (9/10) = min 5 (initTopicSched.mastery + 1)) ∧
     (6/10 ≤ (9/10 : ℚ) → (9/10 : ℚ) < 8/10 →
        updateMastery initTopicSched.mastery (9/10) = max 0 (initTopicSched.mastery - 1/2)) ∧
     ((9/10 : ℚ) < 6/10 →
        updateMastery initTopicSched.mastery (9/10) = max 0 (initTopicSched.mastery - 1))) ∧
    (update_spaced_repetition initTopicSched (9/10) 0).nextReview =
      some (0 +
        ([1, 3, 7, 14, 30, 60].getD
          (max 0 (min 5 ⌊updateMastery initTopicSched.mastery (9/10)⌋)).toNat 1 : ℕ)) ∧
    (check_spaced_repetition initTopicSched 0 = true ∧
     (update_spaced_repetition initTopicSched (9/10) 0).mastery = 1 ∧
     (update_spaced_repetition initTopicSched (9/10) 0).nextReview = some (0 + 3) ∧
     (∀ d : ℤ, 0 ≤ d → d < 3 →
        check_spaced_repetition (update_spaced_repetition initTopicSched (9/10) 0) (0 + d)
          = false) ∧
     check_spaced_repetition (update_spaced_repetition initTopicSched (9/10) 0) (0 + 3)
       = true) :=
  update_spaced_repetition_spec initTopicSched (9/10) 0 le_rfl

/-! ## Per-item memory tracker and review queue (`update_question_memory`,
source lines 439-464, and `_add_to_review`, source lines 2127-2132) -/

/-- One entry of `question_memory`, keyed by the item's fingerprint id. -/
structure MemRecord where
  strength : ℚ
  lastSeen : Option ℤ
  confidence : String
  timesCorrect : ℕ
  timesWrong : ℕ
  topic : ℕ
deriving Repr, DecidableEq

/-- The record `update_question_memory` creates lazily for an unseen id. -/
def initialRecord (confidence : String) (topic : ℕ) : MemRecord :=
  { strength := 0, lastSeen := none, confidence := confidence,
    timesCorrect := 0, timesWrong := 0, topic := topic }

/-- `1 if confidence == 'high' else 0.7 if confidence == 'medium' else 0.4`. -/
def strengthGain (confidence : String) : ℚ :=
  if confidence = "high" then 1 else if confidence = "medium" then 7/10 else 2/5

/-- The memory tracker's state: `question_memory` (an insertion-ordered dict,
modelled as an association list) and `review_queue` (a Python list of ids). -/
structure MemState where
  questionMemory : List (String × MemRecord)
  reviewQueue : List String
deriving Repr, DecidableEq

/-- The state at first run: empty memory, empty review queue. -/
def initMemState : MemState := { questionMemory := [], reviewQueue := [] }

/-- Store `v` under key `k`: in-place overwrite when the key exists
(Python's dict assignment), append otherwise. -/
def setMemEntry (m : List (String × MemRecord)) (k : String) (v : MemRecord) :
    List (String × MemRecord) :=
  if (m.lookup k).isSome then m.map (fun p => if p.1 = k then (k, v) else p)
  else m ++ [(k, v)]

/-- `update_question_memory(question, is_correct, confidence)`, with the
item's fingerprint id and the current timestamp passed in.  On a correct
answer the strength rises by the confidence-dependent gain (capped at 5);
on an incorrect one it drops by 1 (floored at 0) and the id is appended to
the review queue unless already present. -/
def update_question_memory (st : MemState) (qid : String) (topic : ℕ)
    (isCorrect : Bool) (confidence : String) (now : ℤ) : MemState :=
  let mem0 := (st.questionMemory.lookup qid).getD (initialRecord confidence topic)
  let mem1 := { mem0 with lastSeen := some now, confidence := confidence }
  if isCorrect then
    let mem2 := { mem1 with timesCorrect := mem1.timesCorrect + 1,
                            strength := min 5 (mem1.strength + strengthGain confidence) }
    { st with questionMemory := setMemEntry st.questionMemory qid mem2 }
  else
    let mem2 := { mem1 with timesWrong := mem1.timesWrong + 1,
                            strength := max 0 (mem1.strength - 1) }
    { questionMemory := setMemEntry st.questionMemory qid mem2,
      reviewQueue :=
        if qid ∈ st.reviewQueue then st.reviewQueue else st.reviewQueue ++ [qid] }

/-- `update_question_memory` with the caller not supplying a confidence:
the Python signature defaults it to `'medium'`. -/
def update_question_memory_default (st : MemState) (qid : String) (topic : ℕ)
    (isCorrect : Bool) (now : ℤ) : MemState :=
  update_question_memory st qid topic isCorrect "medium" now

/-- `_add_to_review(q_id)`: the explicit add-to-review request shown after
a miss; appends only when the id is not already present. -/
def add_to_review (st : MemState) (qid : String) : MemState :=
  if qid ∈ st.reviewQueue then st else { st with reviewQueue := st.reviewQueue ++ [qid] }

/-- An event touching the memory tracker: an answer recorded for an item,
or an explicit add-to-review request. -/
inductive MemOp where
  | record (qid : String) (topic : ℕ) (isCorrect : Bool) (confidence : String) (now : ℤ)
  | addReview (qid : String)

/-- Apply one memory-tracker event. -/
def applyMemOp (st : MemState) (op : MemOp) : MemState :=
  match op with
  | .record qid topic isCorrect confidence now =>
      update_question_memory st qid topic isCorrect confidence now
  | .addReview qid => add_to_review st qid

lemma reviewQueue_nodup_step (st : MemState) (op : MemOp)
    (h : st.reviewQueue.Nodup) : (applyMemOp st op).reviewQueue.Nodup := by
  have happ : ∀ q : String, q ∉ st.reviewQueue → (st.reviewQueue ++ [q]).Nodup := by
    intro q hq
    simp [List.nodup_append, h, hq]
  cases op with
  | record qid topic isCorrect confidence now =>
      unfold applyMemOp update_question_memory
      cases isCorrect with
      | true => simpa using h
      | false =>
          simp only [Bool.false_eq_true, if_false]
          by_cases hmem : qid ∈ st.reviewQueue
          · simpa [hmem] using h
          · simpa [hmem] using happ qid hmem
  | addReview qid =>
      unfold applyMemOp add_to_review
      by_cases hmem : qid ∈ st.reviewQueue
      · simpa [hmem] using h
      · simpa [hmem] using happ qid hmem

lemma reviewQueue_nodup_foldl (ops : List MemOp) :
    ∀ st : MemState, st.reviewQueue.Nodup → (ops.foldl applyMemOp st).reviewQueue.Nodup := by
  induction ops with
  | nil => intro st h; exact h
  | cons op t ih => intro st h; exact ih _ (reviewQueue_nodup_step st op h)

/-- Claim C5: for every item, any sequence of recorded answers (in
particular incorrect ones) and explicit add-to-review requests leaves at
most one copy of the item's id in the review queue. -/
theorem review_queue_no_duplicates (ops : List MemOp) (qid : String) :
    ((ops.foldl applyMemOp initMemState).reviewQueue).count qid ≤ 1 :=
  List.nodup_iff_count_le_one.mp
    (reviewQueue_nodup_foldl ops initMemState (by simp [initMemState])) qid

/-- Refutation of claim C9 as stated: recording a correct answer with the
invalid confidence value `"invalid"` yields strength 0.4 (the `else` branch
of the gain chain, i.e. the `'low'` gain), not the 0.7 that behaving like
`'medium'` would give. -/
theorem invalid_confidence_not_medium :
    (((update_question_memory initMemState "q1" 1 true "invalid" 0).questionMemory.lookup
        "q1").map MemRecord.strength) = some (2/5 : ℚ) ∧ (2/5 : ℚ) ≠ 7/10 := by
  constructor
  · simp [update_question_memory, initMemState, setMemEntry, initialRecord, strengthGain]
    norm_num
  · norm_num

/-- Claim C9 as amended: `record_answer` never rejects a confidence value
(`update_question_memory` is total); when no confidence is supplied the
Python default parameter makes it `'medium'`, whose strength gain on a
correct answer is 0.7; but a supplied value outside `{'high', 'medium'}`
falls into the `else` branch of the gain chain and gets the gain 0.4
(the same as `'low'`), and is stored as given rather than replaced by
`'medium'`. -/
theorem invalid_confidence_amended (st : MemState) (qid : String) (topic : ℕ)
    (isCorrect : Bool) (now : ℤ) (c : String)
    (hc1 : c ≠ "high") (hc2 : c ≠ "medium") :
    update_question_memory_default st qid topic isCorrect now
      = update_question_memory st qid topic isCorrect "medium" now ∧
    strengthGain "medium" = 7/10 ∧
    strengthGain c = 2/5 := by
  refine ⟨rfl, by unfold strengthGain; rw [if_neg (by decide), if_pos rfl], ?_⟩
  unfold strengthGain
  rw [if_neg hc1, if_neg hc2]

/-- Witness for the amended C9: instantiated at the invalid value
`"banana"` on the initial state. -/
theorem invalid_confidence_amended_witness :
    update_question_memory_default initMemState "q1" 1 true 0
      = update_question_memory initMemState "q1" 1 true "medium" 0 ∧
    strengthGain "medium" = 7/10 ∧
    strengthGain "banana" = 2/5 :=
  invalid_confidence_amended initMemState "q1" 1 true 0 "banana"
    (by decide) (by decide)

/-! ## Progression ledger (`add_xp`, source lines 752-760,
`unlock_achievement`, lines 779-784, `update_streak`, lines 762-777,
`check_streak_with_guardrails`, lines 630-663, and the `longest_streak`
update of `save_data`, lines 380-384) -/

/-- The xp/level/achievements slice of the progression state
(initially `xp = 0`, `level = 1`, `achievements = []`). -/
structure PState where
  xp : ℕ
  level : ℕ
  achievements : List String
deriving Repr, DecidableEq

/-- The achievement name `add_xp` unlocks on a level-up:
`f"Level {self.level} Reached!"`. -/
def levelUpName (n : ℕ) : String := "Level " ++ toString n ++ " Reached!"

/-- `add_xp(amount)`: add the xp, recompute `level = 1 + xp // 100`, and on
a level-up unlock the `Level n Reached!` achievement — which, when the name
is new, itself awards 50 bonus xp through a recursive `add_xp` call
(`unlock_achievement` is inlined here: append the name, then
`add_xp(50)`).  The recursion terminates because a second consecutive
cascade would need another 100 xp from a 50 xp bonus. -/
def add_xp (st : PState) (amount : ℕ) : PState :=
  let xp := st.xp + amount
  let lvl := 1 + xp / 100
  if _h : st.level < lvl then
    if levelUpName lvl ∈ st.achievements then
      { xp := xp, level := lvl, achievements := st.achievements }
    else
      add_xp { xp := xp, level := lvl, achievements := st.achievements ++ [levelUpName lvl] } 50
  else
    { xp := xp, level := lvl, achievements := st.achievements }
termination_by st.xp + amount + 100 - 100 * st.level
decreasing_by
  omega

lemma add_xp_no_levelup (st : PState) (a : ℕ)
    (h : ¬ st.level < 1 + (st.xp + a) / 100) :
    add_xp st a = ⟨st.xp + a, 1 + (st.xp + a) / 100, st.achievements⟩ := by
  rw [add_xp]
  simp [h]

/-- Refutation of claim C3 as stated: from the initial progression state,
`add_xp(100)` then `add_xp(100)` ends at `(xp, level) = (350, 4)` — the
second call's level-up bonus cascades through a further level-up — while
the single `add_xp(200)` ends at `(250, 3)`. -/
theorem add_xp_split_counterexample :
    ¬ (((add_xp (add_xp ⟨0, 1, []⟩ 100) 100).xp, (add_xp (add_xp ⟨0, 1, []⟩ 100) 100).level)
        = ((add_xp ⟨0, 1, []⟩ 200).xp, (add_xp ⟨0, 1, []⟩ 200).level)) := by
  have h1 : ((add_xp (add_xp ⟨0, 1, []⟩ 100) 100).xp, (add_xp (add_xp ⟨0, 1, []⟩ 100) 100).level)
      = (350, 4) := by
    simp [add_xp, levelUpName]
    decide
  have h2 : ((add_xp ⟨0, 1, []⟩ 200).xp, (add_xp ⟨0, 1, []⟩ 200).level) = (250, 3) := by
    simp [add_xp, levelUpName]
  rw [h1, h2]
  decide

/-- Claim C3 as amended: the split law `add_xp(x); add_xp(y) =
add_xp(x + y)` holds (on the whole state, hence on `(xp, level)`) whenever
the combined amount stays below the current level's next boundary, so that
no level-up — and hence no 50 xp achievement bonus — fires; the
hypothesis `level = 1 + xp // 100` is the program's own invariant, since
`add_xp` recomputes the level from cumulative xp on every call.  In
general the law fails, because a level-up's bonus xp can cascade into
further level-ups whose count differs between the split and the combined
call (see the counterexample). -/
theorem add_xp_split_no_levelup (st : PState) (x y : ℕ)
    (hlvl : st.level = 1 + st.xp / 100)
    (hno : st.xp + x + y < 100 * st.level) :
    add_xp (add_xp st x) y = add_xp st (x + y) := by
  have h1 : ¬ st.level < 1 + (st.xp + x) / 100 := by omega
  have hxy : ¬ st.level < 1 + (st.xp + (x + y)) / 100 := by omega
  rw [add_xp_no_levelup st x h1]
  have h2 : ¬ (1 + (st.xp + x) / 100) < 1 + ((st.xp + x) + y) / 100 := by omega
  rw [add_xp_no_levelup _ y h2, add_xp_no_levelup st (x + y) hxy]
  simp only [PState.mk.injEq]
  refine ⟨by omega, by omega, trivial⟩

/-- Witness for the amended C3: splitting 20 + 30 xp inside level 1. -/
theorem add_xp_split_no_levelup_witness :
    add_xp (add_xp ⟨30, 1, []⟩ 20) 30 = add_xp ⟨30, 1, []⟩ (20 + 30) :=
  add_xp_split_no_levelup ⟨30, 1, []⟩ 20 30 (by norm_num) (by norm_num)

/-- `unlock_achievement(achievement_name)`: append the name when new and
award 50 bonus xp via `add_xp`. -/
def unlock_achievement (p : PState) (name : String) : PState :=
  if name ∈ p.achievements then p
  else add_xp { p with achievements := p.achievements ++ [name] } 50

/-- The streak slice of the progression state, together with the embedded
xp/level/achievements slice it feeds (`streak`, `last_study_date`,
`streak_freezes`, `streak_freeze_used_today`,
`personal_bests['longest_streak']`). -/
structure SState where
  streak : ℕ
  lastStudy : Option ℤ
  freezes : ℕ
  freezeUsedToday : Bool
  longestStreak : ℕ
  prog : PState
deriving Repr, DecidableEq

/-- The achievement name `update_streak` unlocks every 7th day:
`f"{self.streak} Day Streak!"`. -/
def streakName (n : ℕ) : String := toString n ++ " Day Streak!"

/-- `update_streak()`, today being day `today`: nothing happens when
already counted today; otherwise the streak is incremented (study date was
yesterday) or reset to 1 (anything else, including the very first call),
`last_study_date` becomes today, and every 7th streak day unlocks an
achievement. -/
def update_streak (st : SState) (today : ℤ) : SState :=
  if st.lastStudy = some today then st
  else
    let streak' :=
      match st.lastStudy with
      | some d => if d = today - 1 then st.streak + 1 else 1
      | none => 1
    let st' : SState := { st with streak := streak', lastStudy := some today }
    if streak' % 7 = 0 then
      { st' with prog := unlock_achievement st'.prog (streakName streak') }
    else st'

lemma update_streak_noop (st : SState) (today : ℤ) (h : st.lastStudy = some today) :
    update_streak st today = st := by
  unfold update_streak
  rw [if_pos h]

lemma update_streak_lastStudy (st : SState) (today : ℤ) :
    (update_streak st today).lastStudy = some today := by
  unfold update_streak
  by_cases h : st.lastStudy = some today
  · rw [if_pos h, h]
  · rw [if_neg h]
    simp only [apply_ite SState.lastStudy, ite_self]

lemma update_streak_streak (st : SState) (today : ℤ) (h : ¬ st.lastStudy = some today) :
    (update_streak st today).streak =
      (match st.lastStudy with
       | some d => if d = today - 1 then st.streak + 1 else 1
       | none => 1) := by
  unfold update_streak
  rw [if_neg h]
  simp only [apply_ite SState.streak, ite_self]

/-- Claim C4: `update_streak` is a no-op when already run today (so running
it twice in one day changes nothing after the first run), increments the
streak by exactly 1 when the last study date was yesterday, resets it to 1
when the last study date is older than yesterday or absent, and in every
non-no-op case stamps `last_study_date` with today. -/
theorem update_streak_spec (st : SState) (today : ℤ) :
    (st.lastStudy = some today → update_streak st today = st) ∧
    (st.lastStudy = some (today - 1) →
      (update_streak st today).streak = st.streak + 1 ∧
      (update_streak st today).lastStudy = some today) ∧
    ((st.lastStudy = none ∨ ∃ d, st.lastStudy = some d ∧ d < today - 1) →
      (update_streak st today).streak = 1 ∧
      (update_streak st today).lastStudy = some today) ∧
    update_streak (update_streak st today) today = update_streak st today := by
  refine ⟨update_streak_noop st today, ?_, ?_, ?_⟩
  · intro h
    have hne : ¬ st.lastStudy = some today := by
      rw [h]; intro hc
      have : today - 1 = today := Option.some.inj hc
      omega
    refine ⟨?_, update_streak_lastStudy st today⟩
    rw [update_streak_streak st today hne, h]
    simp
  · intro h
    refine ⟨?_, update_streak_lastStudy st today⟩
    rcases h with h | ⟨d, hd, hlt⟩
    · have hne : ¬ st.lastStudy = some today := by rw [h]; exact Option.noConfusion
      rw [update_streak_streak st today hne, h]
    · have hne : ¬ st.lastStudy = some today := by
        rw [hd]; intro hc
        have : d = today := Option.some.inj hc
        omega
      rw [update_streak_streak st today hne, hd]
      have : ¬ d = today - 1 := by omega
      simp [this]
  · exact update_streak_noop _ today (update_streak_lastStudy st today)

/-- Witness for C4: a streak of 6 whose last study day was yesterday is
incremented to 7 (and a second same-day call changes nothing), while an
absent last study date resets to 1. -/
theorem update_streak_spec_witness :
    ((update_streak ⟨6, some (-1), 0, false, 6, ⟨0, 1, []⟩⟩ 0).streak = 6 + 1 ∧
     (update_streak ⟨6, some (-1), 0, false, 6, ⟨0, 1, []⟩⟩ 0).lastStudy = some 0) ∧
    ((update_streak ⟨0, none, 2, false, 0, ⟨0, 1, []⟩⟩ 0).streak = 1 ∧
     (update_streak ⟨0, none, 2, false, 0, ⟨0, 1, []⟩⟩ 0).lastStudy = some 0) ∧
    update_streak (update_streak ⟨6, some (-1), 0, false, 6, ⟨0, 1, []⟩⟩ 0) 0
      = update_streak ⟨6, some (-1), 0, false, 6, ⟨0, 1, []⟩⟩ 0 :=
  ⟨(update_streak_spec ⟨6, some (-1), 0, false, 6, ⟨0, 1, []⟩⟩ 0).2.1 (by norm_num),
   (update_streak_spec ⟨0, none, 2, false, 0, ⟨0, 1, []⟩⟩ 0).2.2.1 (Or.inl rfl),
   (update_streak_spec ⟨6, some (-1), 0, false, 6, ⟨0, 1, []⟩⟩ 0).2.2.2⟩

/-- `use_streak_freeze()`: consume one freeze and mark it used today. -/
def use_streak_freeze (st : SState) : SState × Bool :=
  if 0 < st.freezes then
    ({ st with freezes := st.freezes - 1, freezeUsedToday := true }, true)
  else (st, false)

/-- The guard `self.last_study_date and self.last_study_date < yesterday`
of the reset branch: a stored date strictly before yesterday (ISO strings
compare like dates; `None` is falsy). -/
def lastBeforeYesterday (last : Option ℤ) (today : ℤ) : Bool :=
  match last with
  | some d => decide (d < today - 1)
  | none => false

/-- `check_streak_with_guardrails()`, today being day `today`;
`acceptFreeze` is the user's answer to the freeze-offer dialog (consulted
only when the offer is shown).  Returns the decision and the new state:
protected when studied today or yesterday; otherwise a freeze may be
consumed; otherwise a streak that is at risk (last study strictly before
yesterday) is reset to 0 and the check returns false. -/
def check_streak_with_guardrails (st : SState) (today : ℤ) (acceptFreeze : Bool) :
    Bool × SState :=
  if st.lastStudy = some today then (true, st)
  else if st.lastStudy = some (today - 1) then (true, st)
  else if 0 < st.streak ∧ 0 < st.freezes ∧ st.freezeUsedToday = false ∧ acceptFreeze = true then
    (true, (use_streak_freeze st).1)
  else if 0 < st.streak ∧ lastBeforeYesterday st.lastStudy today = true then
    (false, { st with streak := 0 })
  else (false, st)

/-- The `personal_bests['longest_streak']` update `save_data` performs on
every write-through flush (source lines 380-384). -/
def save_data_bests (st : SState) : SState :=
  if st.longestStreak < st.streak then { st with longestStreak := st.streak } else st

/-- Claim C7: with a last study date strictly before yesterday, a positive
streak, and no freeze consumed (none left, already used today, or the
offer declined), the guardrail check returns false and resets the streak
to 0, and the longest-streak personal best ends up (after the ensuing
write-through flush) at the max of its prior value and the streak before
the reset.  The hypothesis `streak ≤ longestStreak` is the program's
write-through invariant: every mutation that raises the streak is
immediately followed by `save_data`, which folds the streak into
`personal_bests['longest_streak']` via max. -/
theorem streak_guardrail_reset (st : SState) (today d : ℤ) (acceptFreeze : Bool)
    (hd : st.lastStudy = some d) (hold : d < today - 1) (hs : 0 < st.streak)
    (hnofreeze : st.freezes = 0 ∨ st.freezeUsedToday = true ∨ acceptFreeze = false)
    (hinv : st.streak ≤ st.longestStreak) :
    (check_streak_with_guardrails st today acceptFreeze).1 = false ∧
    ((check_streak_with_guardrails st today acceptFreeze).2).streak = 0 ∧
    (save_data_bests (check_streak_with_guardrails st today acceptFreeze).2).longestStreak
      = max st.longestStreak st.streak := by
  have hne1 : ¬ st.lastStudy = some today := by
    rw [hd]; intro hc
    have : d = today := Option.some.inj hc
    omega
  have hne2 : ¬ st.lastStudy = some (today - 1) := by
    rw [hd]; intro hc
    have : d = today - 1 := Option.some.inj hc
    omega
  have hnof : ¬ (0 < st.streak ∧ 0 < st.freezes ∧ st.freezeUsedToday = false
      ∧ acceptFreeze = true) := by
    rintro ⟨-, hf, hu, ha⟩
    rcases hnofreeze with h | h | h
    · omega
    · rw [h] at hu; exact Bool.noConfusion hu
    · rw [h] at ha; exact Bool.noConfusion ha
  have hrisk : 0 < st.streak ∧ lastBeforeYesterday st.lastStudy today = true := by
    refine ⟨hs, ?_⟩
    rw [hd]
    exact decide_eq_true hold
  have hout : check_streak_with_guardrails st today acceptFreeze
      = (false, { st with streak := 0 }) := by
    unfold check_streak_with_guardrails
    rw [if_neg hne1, if_neg hne2, if_neg hnof, if_pos hrisk]
  rw [hout]
  refine ⟨rfl, rfl, ?_⟩
  unfold save_data_bests
  rw [if_neg (by simp)]
  exact (max_eq_left hinv).symm

/-- Witness for C7: last study 3 days ago, streak 6, no freezes, prior
longest streak 10 — the check returns false, the streak resets to 0 and
the personal best stays `max 10 6 = 10`. -/
theorem streak_guardrail_reset_witness :
    (check_streak_with_guardrails ⟨6, some (-3), 0, false, 10, ⟨0, 1, []⟩⟩ 0 false).1 = false ∧
    ((check_streak_with_guardrails ⟨6, some (-3), 0, false, 10, ⟨0, 1, []⟩⟩ 0 false).2).streak = 0 ∧
    (save_data_bests
      (check_streak_with_guardrails ⟨6, some (-3), 0, false, 10, ⟨0, 1, []⟩⟩ 0 false).2).longestStreak
      = max 10 6 :=
  streak_guardrail_reset ⟨6, some (-3), 0, false, 10, ⟨0, 1, []⟩⟩ 0 (-3) false
    rfl (by norm_num) (by norm_num) (Or.inl rfl) (by norm_num)

/-! ## Weakest-topic lookup (`get_weakest_topic`, source lines 474-488) -/

/-- One topic's entry of `topic_accuracy` (`{'correct': .., 'total': ..}`;
a missing key reads as `{'correct': 0, 'total': 0}`). -/
structure AccData where
  correct : ℕ
  total : ℕ
deriving Repr, DecidableEq

/-- `(acc_data['correct'] / acc_data['total']) * 100`, the accuracy
percentage the scan compares (only ever computed when `total > 0`). -/
def accPct (a : AccData) : ℚ :=
  ((a.correct : ℚ) / (a.total : ℚ)) * 100

/-- One iteration of `get_weakest_topic`'s scan, state
`(weakest, lowest_acc)` starting from `(None, 101)`: an attempted topic
wins when its percentage is strictly below the running minimum; an
untried topic is taken — with the running minimum set to 0 — only while
`weakest` is still `None`. -/
def weakestStep (acc : ℕ → AccData) (s : Option ℕ × ℚ) (t : ℕ) : Option ℕ × ℚ :=
  let a := acc t
  if 0 < a.total then
    if accPct a < s.2 then (some t, accPct a) else s
  else if s.1 = none then (some t, 0) else s

/-- `get_weakest_topic()`: scan the topic catalog in order (`topics.keys()`,
insertion order 1..N) against `topic_accuracy`. -/
def get_weakest_topic (topics : List ℕ) (acc : ℕ → AccData) : Option ℕ × ℚ :=
  topics.foldl (weakestStep acc) (none, 101)

lemma accPct_nonneg (a : AccData) : 0 ≤ accPct a := by
  unfold accPct
  positivity

lemma accPct_le_100 (a : AccData) (h : a.correct ≤ a.total) : accPct a ≤ 100 := by
  rcases Nat.eq_zero_or_pos a.total with h0 | hpos
  · have hc : a.correct = 0 := by omega
    simp [accPct, hc]
  · have ht : (0 : ℚ) < a.total := by exact_mod_cast hpos
    have h1 : (a.correct : ℚ) / a.total ≤ 1 := by
      rw [div_le_one ht]; exact_mod_cast h
    have := mul_le_mul_of_nonneg_right h1 (by norm_num : (0 : ℚ) ≤ 100)
    simpa [accPct] using this

lemma weakest_fold_zero (acc : ℕ → AccData) :
    ∀ (l : List ℕ) (w : ℕ), l.foldl (weakestStep acc) (some w, 0) = (some w, 0) := by
  intro l
  induction l with
  | nil => intro w; rfl
  | cons a tl ih =>
      intro w
      have hstep : weakestStep acc (some w, 0) a = (some w, 0) := by
        unfold weakestStep
        by_cases ha : 0 < (acc a).total
        · rw [if_pos ha, if_neg (not_lt.mpr (accPct_nonneg (acc a)))]
        · rw [if_neg ha, if_neg (by simp)]
      rw [List.foldl_cons, hstep, ih w]

lemma weakest_fold_min (acc : ℕ → AccData) :
    ∀ (l : List ℕ) (w : ℕ), 0 < (acc w).total →
      ∃ t : ℕ, l.foldl (weakestStep acc) (some w, accPct (acc w)) = (some t, accPct (acc t)) ∧
        0 < (acc t).total ∧ (t = w ∨ t ∈ l) ∧
        accPct (acc t) ≤ accPct (acc w) ∧
        ∀ u ∈ l, 0 < (acc u).total → accPct (acc t) ≤ accPct (acc u) := by
  intro l
  induction l with
  | nil => intro w hw; exact ⟨w, rfl, hw, Or.inl rfl, le_rfl, by simp⟩
  | cons a tl ih =>
      intro w hw
      rw [List.foldl_cons]
      by_cases ha : 0 < (acc a).total
      · by_cases hlt : accPct (acc a) < accPct (acc w)
        · have hstep : weakestStep acc (some w, accPct (acc w)) a = (some a, accPct (acc a)) := by
            unfold weakestStep
            rw [if_pos ha, if_pos hlt]
          rw [hstep]
          obtain ⟨t, heq, ht, hmem, hle, hmin⟩ := ih a ha
          refine ⟨t, heq, ht, ?_, le_trans hle (le_of_lt hlt), ?_⟩
          · rcases hmem with rfl | hmem
            · exact Or.inr (List.mem_cons_self t tl)
            · exact Or.inr (List.mem_cons_of_mem a hmem)
          · intro u hu hut
            rcases List.mem_cons.mp hu with rfl | hu
            · exact hle
            · exact hmin u hu hut
        · have hstep : weakestStep acc (some w, accPct (acc w)) a = (some w, accPct (acc w)) := by
            unfold weakestStep
            rw [if_pos ha, if_neg hlt]
          rw [hstep]
          obtain ⟨t, heq, ht, hmem, hle, hmin⟩ := ih w hw
          refine ⟨t, heq, ht, ?_, hle, ?_⟩
          · rcases hmem with rfl | hmem
            · exact Or.inl rfl
            · exact Or.inr (List.mem_cons_of_mem a hmem)
          · intro u hu hut
            rcases List.mem_cons.mp hu with rfl | hu
            · exact le_trans hle (not_lt.mp hlt)
            · exact hmin u hu hut
      · have hstep : weakestStep acc (some w, accPct (acc w)) a = (some w, accPct (acc w)) := by
          unfold weakestStep
          rw [if_neg ha, if_neg (by simp)]
        rw [hstep]
        obtain ⟨t, heq, ht, hmem, hle, hmin⟩ := ih w hw
        refine ⟨t, heq, ht, ?_, hle, ?_⟩
        · rcases hmem with rfl | hmem
          · exact Or.inl rfl
          · exact Or.inr (List.mem_cons_of_mem a hmem)
        · intro u hu hut
          rcases List.mem_cons.mp hu with rfl | hu
          · exact absurd hut ha
          · exact hmin u hu hut

/-- The accuracy table of the C8 counterexample: topic 2 has one attempt
(0 correct out of 1), every other topic is untried. -/
def accC8 : ℕ → AccData := fun t => if t = 2 then ⟨0, 1⟩ else ⟨0, 0⟩

/-- Refutation of claim C8 as stated: with catalog `[1, 2]`, topic 1
untried and topic 2 attempted (0/1), `get_weakest_topic` returns the
untried topic 1 — the untried fallback at the head of the scan sets the
running minimum to 0, which the attempted topic's 0% cannot strictly
beat. -/
theorem weakest_topic_counterexample :
    (get_weakest_topic [1, 2] accC8).1 = some 1 ∧
    (accC8 1).total = 0 ∧ 0 < (accC8 2).total := by
  refine ⟨?_, by norm_num [accC8], by norm_num [accC8]⟩
  have h1 : weakestStep accC8 (none, 101) 1 = (some 1, 0) := by
    unfold weakestStep accC8
    norm_num
  have h2 : weakestStep accC8 (some 1, 0) 2 = (some 1, 0) := by
    unfold weakestStep accC8
    norm_num [accPct]
  show ([1, 2].foldl (weakestStep accC8) (none, 101)).1 = some 1
  rw [List.foldl_cons, h1, List.foldl_cons, h2]
  rfl

/-- Claim C8 as amended: when the first topic of the catalog's iteration
order has at least one attempt, the lookup returns an attempted topic with
the lowest accuracy ratio among attempted topics; but when the first topic
is untried, that untried topic itself is returned regardless of any other
topic's accuracy data, because the untried fallback sets the running
lowest accuracy to 0, which no attempted topic can strictly undercut.
(The hypothesis `correct ≤ total` is the program's counter invariant:
both counters only grow together, `correct` at most as fast as
`total`.) -/
theorem get_weakest_topic_amended (t0 : ℕ) (rest : List ℕ) (acc : ℕ → AccData)
    (hwf : ∀ t ∈ t0 :: rest, (acc t).correct ≤ (acc t).total) :
    (0 < (acc t0).total →
      ∃ t, (get_weakest_topic (t0 :: rest) acc).1 = some t ∧
        0 < (acc t).total ∧ t ∈ t0 :: rest ∧
        ∀ u ∈ t0 :: rest, 0 < (acc u).total → accPct (acc t) ≤ accPct (acc u)) ∧
    ((acc t0).total = 0 → (get_weakest_topic (t0 :: rest) acc).1 = some t0) := by
  constructor
  · intro h0
    have hstep : weakestStep acc (none, 101) t0 = (some t0, accPct (acc t0)) := by
      unfold weakestStep
      rw [if_pos h0, if_pos ?_]
      calc accPct (acc t0) ≤ 100 := accPct_le_100 _ (hwf t0 (List.mem_cons_self t0 rest))
        _ < 101 := by norm_num
    unfold get_weakest_topic
    rw [List.foldl_cons, hstep]
    obtain ⟨t, heq, ht, hmem, hle, hmin⟩ := weakest_fold_min acc rest t0 h0
    refine ⟨t, by rw [heq], ht, ?_, ?_⟩
    · rcases hmem with rfl | hmem
      · exact List.mem_cons_self t rest
      · exact List.mem_cons_of_mem t0 hmem
    · intro u hu hut
      rcases List.mem_cons.mp hu with rfl | hu
      · exact hle
      · exact hmin u hu hut
  · intro h0
    have hstep : weakestStep acc (none, 101) t0 = (some t0, 0) := by
      unfold weakestStep
      rw [if_neg (by omega), if_pos rfl]
    unfold get_weakest_topic
    rw [List.foldl_cons, hstep, weakest_fold_zero acc rest t0]

/-- Witness for the amended C8: catalog `[1, 2]` with topic 1 attempted at
50% and topic 2 attempted at 0% — an attempted topic with minimal accuracy
is returned; and the untried-head branch instantiated on `accC8` returns
topic 1. -/
theorem get_weakest_topic_amended_witness :
    (∃ t, (get_weakest_topic [1, 2] (fun t => if t = 1 then ⟨1, 2⟩ else ⟨0, 1⟩)).1 = some t ∧
      0 < ((fun t => if t = 1 then (⟨1, 2⟩ : AccData) else ⟨0, 1⟩) t).total ∧ t ∈ [1, 2] ∧
      ∀ u ∈ [1, 2], 0 < ((fun t => if t = 1 then (⟨1, 2⟩ : AccData) else ⟨0, 1⟩) u).total →
        accPct ((fun t => if t = 1 then (⟨1, 2⟩ : AccData) else ⟨0, 1⟩) t)
          ≤ accPct ((fun t => if t = 1 then (⟨1, 2⟩ : AccData) else ⟨0, 1⟩) u)) ∧
    ((get_weakest_topic [1, 2] accC8).1 = some 1) :=
  ⟨(get_weakest_topic_amended 1 [2] (fun t => if t = 1 then ⟨1, 2⟩ else ⟨0, 1⟩)
      (by intro t ht; fin_cases ht <;> norm_num)).1 (by norm_num),
   (get_weakest_topic_amended 1 [2] accC8
      (by intro t ht; fin_cases ht <;> norm_num [accC8])).2 (by norm_num [accC8])⟩

/-! ## Quest engine (`update_quest_progress`, source lines 573-584, and
`complete_quest`, source lines 586-609) -/

/-- One quest dict, as built by `generate_daily_quests`: `target_topic` is
present only on the topic-scoped study quest, `is_weekly` only on the
Monday quest (absent keys read as `None`/falsy through `.get`). -/
structure Quest where
  id : String
  title : String
  description : String
  qtype : String
  target : ℕ
  progress : ℕ
  xpReward : ℕ
  targetTopic : Option ℕ
  isWeekly : Bool
  generatedDate : ℤ
deriving Repr, DecidableEq

/-- Python truthiness of an optional topic number (`None` and `0` are
falsy; real topic ids are positive). -/
def truthyOpt : Option ℕ → Bool
  | none => false
  | some n => decide (n ≠ 0)

/-- The selection guard of `update_quest_progress`'s loop: the quest's
type must match, and the quest is skipped (`continue`) only when
`topic and quest.get('target_topic') and quest['target_topic'] != topic`
— i.e. when the call supplies a (truthy) topic, the quest is
topic-scoped, and the two differ. -/
def questSelected (qtype : String) (topic : Option ℕ) (q : Quest) : Bool :=
  decide (q.qtype = qtype) &&
    !(truthyOpt topic && truthyOpt q.targetTopic && decide (q.targetTopic ≠ topic))

/-- `quest['progress'] = min(quest['target'], quest['progress'] + amount)`. -/
def bumpQuest (amount : ℕ) (q : Quest) : Quest :=
  { q with progress := min q.target (q.progress + amount) }

/-- The quest engine's state: the `active_quests` and `completed_quests`
lists, plus an append-only log of the `add_xp(quest['xp_reward'])` award
events `complete_quest` fires (the xp bookkeeping itself, and the
feature-unlock side effects, live in the progression ledger and are not
at issue in the claims below). -/
structure QuestState where
  active : List Quest
  completed : List Quest
  awards : List (String × ℕ)
deriving Repr, DecidableEq

/-- `complete_quest(quest)`: guarded by `quest not in completed_quests`
(structural equality); appends to the completed list, drops every active
quest with the same id, and awards the xp. -/
def complete_quest (st : QuestState) (q : Quest) : QuestState :=
  if q ∈ st.completed then st
  else
    { active := st.active.filter (fun r => r.id != q.id),
      completed := st.completed ++ [q],
      awards := st.awards ++ [(q.id, q.xpReward)] }

/-- One iteration of `update_quest_progress`'s loop on snapshot element
`q`: when selected, the in-place progress mutation is the id-keyed
replacement in the current active list (faithful while active ids are
distinct, which the generator guarantees), then the completion check. -/
def stepQuest (qtype : String) (amount : ℕ) (topic : Option ℕ)
    (st : QuestState) (q : Quest) : QuestState :=
  if questSelected qtype topic q then
    if (bumpQuest amount q).target ≤ (bumpQuest amount q).progress then
      complete_quest
        { st with active := st.active.map (fun r => if r.id = q.id then bumpQuest amount q else r) }
        (bumpQuest amount q)
    else
      { st with active := st.active.map (fun r => if r.id = q.id then bumpQuest amount q else r) }
  else st

/-- `update_quest_progress(quest_type, amount, topic)`: iterate over the
snapshot of `active_quests` taken at loop entry (in Python the loop walks
the original list object even after `complete_quest` rebinds
`self.active_quests`). -/
def update_quest_progress (st : QuestState) (qtype : String) (amount : ℕ)
    (topic : Option ℕ) : QuestState :=
  st.active.foldl (stepQuest qtype amount topic) st

lemma bumpQuest_id (amount : ℕ) (q : Quest) : (bumpQuest amount q).id = q.id := rfl

lemma stepQuest_active_ids (qtype : String) (amount : ℕ) (topic : Option ℕ)
    (st : QuestState) (q : Quest) :
    ∀ r' ∈ (stepQuest qtype amount topic st q).active, ∃ r ∈ st.active, r'.id = r.id := by
  intro r' hr'
  have hmapcase : ∀ x ∈ st.active.map (fun r => if r.id = q.id then bumpQuest amount q else r),
      ∃ r ∈ st.active, x.id = r.id := by
    intro x hx
    obtain ⟨r, hr, hfr⟩ := List.mem_map.mp hx
    refine ⟨r, hr, ?_⟩
    subst hfr
    by_cases hcase : r.id = q.id
    · rw [if_pos hcase, bumpQuest_id, hcase]
    · rw [if_neg hcase]
  unfold stepQuest at hr'
  split at hr'
  · split at hr'
    · unfold complete_quest at hr'
      split at hr'
      · exact hmapcase r' hr'
      · exact hmapcase r' (List.mem_of_mem_filter hr')
    · exact hmapcase r' hr'
  · exact ⟨r', hr', rfl⟩

lemma stepQuest_idFree (qtype : String) (amount : ℕ) (topic : Option ℕ)
    (st : QuestState) (q : Quest) (i : String)
    (h : ∀ r ∈ st.active, r.id ≠ i) :
    ∀ r ∈ (stepQuest qtype amount topic st q).active, r.id ≠ i := by
  intro r' hr'
  obtain ⟨r, hr, hid⟩ := stepQuest_active_ids qtype amount topic st q r' hr'
  rw [hid]
  exact h r hr

lemma foldl_stepQuest_idFree (qtype : String) (amount : ℕ) (topic : Option ℕ)
    (i : String) :
    ∀ (l : List Quest) (st : QuestState), (∀ r ∈ st.active, r.id ≠ i) →
      ∀ r ∈ (l.foldl (stepQuest qtype amount topic) st).active, r.id ≠ i := by
  intro l
  induction l with
  | nil => intro st h; exact h
  | cons a tl ih =>
      intro st h
      exact ih _ (stepQuest_idFree qtype amount topic st a i h)

lemma stepQuest_filters (qtype : String) (amount : ℕ) (topic : Option ℕ)
    (st : QuestState) (q : Quest) (i : String) (hq : q.id ≠ i) :
    (stepQuest qtype amount topic st q).completed.filter (fun c => c.id == i)
      = st.completed.filter (fun c => c.id == i) ∧
    (stepQuest qtype amount topic st q).awards.filter (fun a => a.1 == i)
      = st.awards.filter (fun a => a.1 == i) := by
  unfold stepQuest
  split
  · split
    · unfold complete_quest
      split
      · exact ⟨rfl, rfl⟩
      · constructor
        · simp only [List.filter_append]
          rw [List.filter_cons, List.filter_nil]
          have : ((bumpQuest amount q).id == i) = false := by
            rw [bumpQuest_id]
            exact beq_eq_false_iff_ne.mpr hq
          rw [this]
          simp
        · simp only [List.filter_append]
          rw [List.filter_cons, List.filter_nil]
          have : (((bumpQuest amount q).id, q.xpReward).1 == i) = false := by
            rw [bumpQuest_id]
            exact beq_eq_false_iff_ne.mpr hq
          rw [this]
          simp
    · exact ⟨rfl, rfl⟩
  · exact ⟨rfl, rfl⟩

lemma foldl_stepQuest_filters (qtype : String) (amount : ℕ) (topic : Option ℕ)
    (i : String) :
    ∀ (l : List Quest) (st : QuestState), (∀ r ∈ l, r.id ≠ i) →
      (l.foldl (stepQuest qtype amount topic) st).completed.filter (fun c => c.id == i)
        = st.completed.filter (fun c => c.id == i) ∧
      (l.foldl (stepQuest qtype amount topic) st).awards.filter (fun a => a.1 == i)
        = st.awards.filter (fun a => a.1 == i) := by
  intro l
  induction l with
  | nil => intro st _; exact ⟨rfl, rfl⟩
  | cons a tl ih =>
      intro st h
      have ha : a.id ≠ i := h a (List.mem_cons_self a tl)
      have htl : ∀ r ∈ tl, r.id ≠ i := fun r hr => h r (List.mem_cons_of_mem a hr)
      obtain ⟨hc, hw⟩ := stepQuest_filters qtype amount topic st a i ha
      obtain ⟨hc2, hw2⟩ := ih (stepQuest qtype amount topic st a) htl
      exact ⟨hc2.trans hc, hw2.trans hw⟩

lemma stepQuest_survive (qtype : String) (amount : ℕ) (topic : Option ℕ)
    (st : QuestState) (r q : Quest) (hmem : q ∈ st.active) (hne : r.id ≠ q.id) :
    q ∈ (stepQuest qtype amount topic st r).active := by
  unfold stepQuest
  split
  · have hfq : (if q.id = r.id then bumpQuest amount r else q) = q :=
      if_neg (fun h => hne h.symm)
    have hmap : q ∈ st.active.map (fun x => if x.id = r.id then bumpQuest amount r else x) := by
      have := List.mem_map_of_mem (fun x => if x.id = r.id then bumpQuest amount r else x) hmem
      simpa only [hfq] using this
    split
    · unfold complete_quest
      split
      · exact hmap
      · simp only
        refine List.mem_filter.mpr ⟨hmap, ?_⟩
        rw [bumpQuest_id]
        exact bne_iff_ne.mpr (fun h => hne h.symm)
    · exact hmap
  · exact hmem

lemma foldl_stepQuest_survive (qtype : String) (amount : ℕ) (topic : Option ℕ)
    (q : Quest) :
    ∀ (l : List Quest) (st : QuestState), q ∈ st.active → (∀ r ∈ l, r.id ≠ q.id) →
      q ∈ (l.foldl (stepQuest qtype amount topic) st).active := by
  intro l
  induction l with
  | nil => intro st hmem _; exact hmem
  | cons a tl ih =>
      intro st hmem h
      exact ih _
        (stepQuest_survive qtype amount topic st a q hmem (h a (List.mem_cons_self a tl)))
        (fun r hr => h r (List.mem_cons_of_mem a hr))

lemma stepQuest_clamp (qtype : String) (amount : ℕ) (topic : Option ℕ)
    (st : QuestState) (q : Quest)
    (h : ∀ r ∈ st.active, r.progress ≤ r.target) :
    ∀ r ∈ (stepQuest qtype amount topic st q).active, r.progress ≤ r.target := by
  have hmap : ∀ x ∈ st.active.map (fun r => if r.id = q.id then bumpQuest amount q else r),
      x.progress ≤ x.target := by
    intro x hx
    obtain ⟨r, hr, hfr⟩ := List.mem_map.mp hx
    subst hfr
    by_cases hcase : r.id = q.id
    · rw [if_pos hcase]
      exact min_le_left _ _
    · rw [if_neg hcase]
      exact h r hr
  intro r' hr'
  unfold stepQuest at hr'
  split at hr'
  · split at hr'
    · unfold complete_quest at hr'
      split at hr'
      · exact hmap r' hr'
      · exact hmap r' (List.mem_of_mem_filter hr')
    · exact hmap r' hr'
  · exact h r' hr'

lemma foldl_stepQuest_clamp (qtype : String) (amount : ℕ) (topic : Option ℕ) :
    ∀ (l : List Quest) (st : QuestState), (∀ r ∈ st.active, r.progress ≤ r.target) →
      ∀ r ∈ (l.foldl (stepQuest qtype amount topic) st).active, r.progress ≤ r.target := by
  intro l
  induction l with
  | nil => intro st h; exact h
  | cons a tl ih =>
      intro st h
      exact ih _ (stepQuest_clamp qtype amount topic st a h)

lemma stepQuest_completed_mono (qtype : String) (amount : ℕ) (topic : Option ℕ)
    (st : QuestState) (q c : Quest) (h : c ∈ st.completed) :
    c ∈ (stepQuest qtype amount topic st q).completed := by
  unfold stepQuest
  split
  · split
    · unfold complete_quest
      split
      · exact h
      · exact List.mem_append_left _ h
    · exact h
  · exact h

lemma foldl_stepQuest_completed_mono (qtype : String) (amount : ℕ) (topic : Option ℕ)
    (c : Quest) :
    ∀ (l : List Quest) (st : QuestState), c ∈ st.completed →
      c ∈ (l.foldl (stepQuest qtype amount topic) st).completed := by
  intro l
  induction l with
  | nil => intro st h; exact h
  | cons a tl ih =>
      intro st h
      exact ih _ (stepQuest_completed_mono qtype amount topic st a c h)

/-- Claim C6: quest progress updates clamp progress to the target, and a
quest that reaches its target is completed exactly once: it leaves the
active set, is appended to the completed list exactly once, its
`xp_reward` is awarded (via `add_xp`) exactly once, and no subsequent
`update_quest_progress` call — of any type — re-awards or re-appends it.
Hypotheses are the generator's invariants: distinct active quest ids,
no completed quest or past award sharing an active quest's id, and
progress previously clamped. -/
theorem quest_completion_single_fire (st : QuestState) (qtype : String) (amount : ℕ)
    (topic : Option ℕ) (q : Quest)
    (hNodup : (st.active.map (fun r => r.id)).Nodup)
    (hDisj : ∀ c ∈ st.completed, c.id ≠ q.id)
    (hAw : ∀ a ∈ st.awards, a.1 ≠ q.id)
    (hClamp : ∀ r ∈ st.active, r.progress ≤ r.target)
    (hq : q ∈ st.active)
    (hsel : questSelected qtype topic q = true)
    (hdone : q.target ≤ q.progress + amount) :
    (∀ r ∈ (update_quest_progress st qtype amount topic).active, r.progress ≤ r.target) ∧
    (∀ r ∈ (update_quest_progress st qtype amount topic).active, r.id ≠ q.id) ∧
    ((update_quest_progress st qtype amount topic).completed.filter
        (fun c => c.id == q.id)).length = 1 ∧
    ((update_quest_progress st qtype amount topic).awards.filter
        (fun a => a.1 == q.id)).length = 1 ∧
    ∀ (qt2 : String) (am2 : ℕ) (tp2 : Option ℕ),
      ((update_quest_progress (update_quest_progress st qtype amount topic) qt2 am2 tp2).completed.filter
          (fun c => c.id == q.id)).length = 1 ∧
      ((update_quest_progress (update_quest_progress st qtype amount topic) qt2 am2 tp2).awards.filter
          (fun a => a.1 == q.id)).length = 1 := by
  obtain ⟨l₁, l₂, hsplit⟩ := List.append_of_mem hq
  have hnd := hNodup
  rw [hsplit, List.map_append, List.map_cons] at hnd
  rw [List.nodup_append] at hnd
  obtain ⟨hnd1, hnd2, hdisj12⟩ := hnd
  have h1 : ∀ r ∈ l₁, r.id ≠ q.id := by
    intro r hr hcontra
    exact hdisj12 (hcontra ▸ List.mem_map_of_mem (fun r => r.id) hr)
      (List.mem_cons_self _ _)
  have h2 : ∀ r ∈ l₂, r.id ≠ q.id := by
    intro r hr hcontra
    rw [List.nodup_cons] at hnd2
    exact hnd2.1 (hcontra ▸ List.mem_map_of_mem (fun r => r.id) hr)
  have hfold : update_quest_progress st qtype amount topic
      = l₂.foldl (stepQuest qtype amount topic)
          (stepQuest qtype amount topic (l₁.foldl (stepQuest qtype amount topic) st) q) := by
    unfold update_quest_progress
    rw [hsplit, List.foldl_append, List.foldl_cons]
  have hcfilter : st.completed.filter (fun c => c.id == q.id) = [] := by
    rw [List.filter_eq_nil_iff]
    intro c hc
    simpa using hDisj c hc
  have hafilter : st.awards.filter (fun a => a.1 == q.id) = [] := by
    rw [List.filter_eq_nil_iff]
    intro a ha
    simpa using hAw a ha
  obtain ⟨hcA, haA⟩ :=
    foldl_stepQuest_filters qtype amount topic q.id l₁ st h1
  rw [hcfilter] at hcA
  rw [hafilter] at haA
  have hqA : q ∈ (l₁.foldl (stepQuest qtype amount topic) st).active :=
    foldl_stepQuest_survive qtype amount topic q l₁ st hq h1
  have hclampA : ∀ r ∈ (l₁.foldl (stepQuest qtype amount topic) st).active,
      r.progress ≤ r.target :=
    foldl_stepQuest_clamp qtype amount topic l₁ st hClamp
  have hcomp : (bumpQuest amount q).target ≤ (bumpQuest amount q).progress := by
    show q.target ≤ min q.target (q.progress + amount)
    exact le_min le_rfl hdone
  have hnotin : bumpQuest amount q ∉ (l₁.foldl (stepQuest qtype amount topic) st).completed := by
    intro hc
    have : bumpQuest amount q ∈
        ((l₁.foldl (stepQuest qtype amount topic) st).completed.filter
          (fun c => c.id == q.id)) :=
      List.mem_filter.mpr ⟨hc, by rw [bumpQuest_id]; exact beq_self_eq_true _⟩
    rw [hcA] at this
    exact absurd this (List.not_mem_nil _)
  set stA := l₁.foldl (stepQuest qtype amount topic) st with hstAdef
  have hstB : stepQuest qtype amount topic stA q
      = { active := (stA.active.map
            (fun r => if r.id = q.id then bumpQuest amount q else r)).filter
              (fun r => r.id != q.id),
          completed := stA.completed ++ [bumpQuest amount q],
          awards := stA.awards ++ [(q.id, q.xpReward)] } := by
    unfold stepQuest
    rw [if_pos hsel, if_pos hcomp]
    unfold complete_quest
    rw [if_neg hnotin]
    rfl
  have hfreeB : ∀ r ∈ (stepQuest qtype amount topic stA q).active, r.id ≠ q.id := by
    rw [hstB]
    intro r hr
    exact bne_iff_ne.mp (List.mem_filter.mp hr).2
  have hcB : (stepQuest qtype amount topic stA q).completed.filter (fun c => c.id == q.id)
      = [bumpQuest amount q] := by
    rw [hstB]
    simp only [List.filter_append, hcA]
    rw [List.filter_cons, List.filter_nil]
    rw [show ((bumpQuest amount q).id == q.id) = true from beq_self_eq_true _]
    rfl
  have haB : (stepQuest qtype amount topic stA q).awards.filter (fun a => a.1 == q.id)
      = [(q.id, q.xpReward)] := by
    rw [hstB]
    simp only [List.filter_append, haA]
    rw [List.filter_cons, List.filter_nil]
    rw [show (((q.id : String), q.xpReward).1 == q.id) = true from beq_self_eq_true _]
    rfl
  have hclampB : ∀ r ∈ (stepQuest qtype amount topic stA q).active, r.progress ≤ r.target :=
    stepQuest_clamp qtype amount topic stA q hclampA
  set stB := stepQuest qtype amount topic stA q with hstBdef
  obtain ⟨hcF, haF⟩ := foldl_stepQuest_filters qtype amount topic q.id l₂ stB h2
  rw [hcB] at hcF
  rw [haB] at haF
  have hfreeF : ∀ r ∈ (l₂.foldl (stepQuest qtype amount topic) stB).active, r.id ≠ q.id :=
    foldl_stepQuest_idFree qtype amount topic q.id l₂ stB hfreeB
  have hclampF : ∀ r ∈ (l₂.foldl (stepQuest qtype amount topic) stB).active,
      r.progress ≤ r.target :=
    foldl_stepQuest_clamp qtype amount topic l₂ stB hclampB
  rw [hfold]
  refine ⟨hclampF, hfreeF, by rw [hcF]; rfl, by rw [haF]; rfl, ?_⟩
  intro qt2 am2 tp2
  set stF := l₂.foldl (stepQuest qtype amount topic) stB with hstFdef
  obtain ⟨hc2, ha2⟩ :=
    foldl_stepQuest_filters qt2 am2 tp2 q.id stF.active stF hfreeF
  show ((stF.active.foldl (stepQuest qt2 am2 tp2) stF).completed.filter
      (fun c => c.id == q.id)).length = 1 ∧
    ((stF.active.foldl (stepQuest qt2 am2 tp2) stF).awards.filter
      (fun a => a.1 == q.id)).length = 1
  rw [hc2, ha2, hcF, haF]
  exact ⟨rfl, rfl⟩

/-- The quest of the C6 witness scenario: the daily 5-question quiz quest,
3 answers in, receiving 2 more. -/
def questC6 : Quest :=
  { id := "daily_quiz", title := "Complete Daily Quiz",
    description := "Complete a 5-question mini-quiz on any topic",
    qtype := "quiz", target := 5, progress := 3, xpReward := 25,
    targetTopic := none, isWeekly := false, generatedDate := 0 }

/-- The quest state of the C6 witness scenario. -/
def stC6 : QuestState := { active := [questC6], completed := [], awards := [] }

/-- Witness for C6: the concrete daily-quiz quest completes once and stays
completed once under arbitrary further calls. -/
theorem quest_completion_single_fire_witness :
    (∀ r ∈ (update_quest_progress stC6 "quiz" 2 none).active, r.progress ≤ r.target) ∧
    (∀ r ∈ (update_quest_progress stC6 "quiz" 2 none).active, r.id ≠ questC6.id) ∧
    ((update_quest_progress stC6 "quiz" 2 none).completed.filter
        (fun c => c.id == questC6.id)).length = 1 ∧
    ((update_quest_progress stC6 "quiz" 2 none).awards.filter
        (fun a => a.1 == questC6.id)).length = 1 ∧
    ∀ (qt2 : String) (am2 : ℕ) (tp2 : Option ℕ),
      ((update_quest_progress (update_quest_progress stC6 "quiz" 2 none) qt2 am2 tp2).completed.filter
          (fun c => c.id == questC6.id)).length = 1 ∧
      ((update_quest_progress (update_quest_progress stC6 "quiz" 2 none) qt2 am2 tp2).awards.filter
          (fun a => a.1 == questC6.id)).length = 1 :=
  quest_completion_single_fire stC6 "quiz" 2 none questC6
    (by simp [stC6]) (by simp [stC6]) (by simp [stC6])
    (by intro r hr; simp [stC6] at hr; rw [hr]; norm_num [questC6])
    (by simp [stC6]) (by decide) (by norm_num [questC6])

lemma split_nodup_ids (st : QuestState) (q : Quest) (hq : q ∈ st.active)
    (hNodup : (st.active.map (fun r => r.id)).Nodup) :
    ∃ l₁ l₂, st.active = l₁ ++ q :: l₂ ∧
      (∀ r ∈ l₁, r.id ≠ q.id) ∧ (∀ r ∈ l₂, r.id ≠ q.id) := by
  obtain ⟨l₁, l₂, hsplit⟩ := List.append_of_mem hq
  refine ⟨l₁, l₂, hsplit, ?_, ?_⟩
  · intro r hr hcontra
    rw [hsplit, List.map_append, List.map_cons, List.nodup_append] at hNodup
    exact hNodup.2.2 (hcontra ▸ List.mem_map_of_mem (fun r => r.id) hr)
      (List.mem_cons_self _ _)
  · intro r hr hcontra
    rw [hsplit, List.map_append, List.map_cons, List.nodup_append, List.nodup_cons] at hNodup
    exact hNodup.2.1.1 (hcontra ▸ List.mem_map_of_mem (fun r => r.id) hr)

/-- Claim C10: when `update_quest_progress` is called with no topic
(`topic = None`), the selection guard reduces to the type check alone, so
every active quest of the matching type — including topic-scoped quests
with a non-null `target_topic` — has its progress incremented (ending up,
bumped, in the new active list or in the completed list); and in general
the guard rejects a type-matching quest exactly when the call supplies a
(truthy) topic, the quest has a (truthy) `target_topic`, and the two
differ. -/
theorem update_quest_progress_no_topic (st : QuestState) (qtype : String) (amount : ℕ)
    (hNodup : (st.active.map (fun r => r.id)).Nodup) :
    (∀ q : Quest, questSelected qtype none q = decide (q.qtype = qtype)) ∧
    (∀ (topic : Option ℕ) (q : Quest), questSelected qtype topic q = false ↔
        (q.qtype ≠ qtype ∨ (truthyOpt topic = true ∧ truthyOpt q.targetTopic = true ∧
          q.targetTopic ≠ topic))) ∧
    (∀ q ∈ st.active, q.qtype = qtype →
        bumpQuest amount q ∈ (update_quest_progress st qtype amount none).active ∨
        bumpQuest amount q ∈ (update_quest_progress st qtype amount none).completed) := by
  refine ⟨?_, ?_, ?_⟩
  · intro q
    simp [questSelected, truthyOpt]
  · intro topic q
    by_cases hP : q.qtype = qtype <;>
      by_cases hA : truthyOpt topic = true <;>
        by_cases hB : truthyOpt q.targetTopic = true <;>
          by_cases hC : q.targetTopic = topic <;>
            simp [questSelected, hP, hA, hB, hC]
  · intro q hq hqt
    have hsel : questSelected qtype none q = true := by
      simp [questSelected, truthyOpt, hqt]
    obtain ⟨l₁, l₂, hsplit, h1, h2⟩ := split_nodup_ids st q hq hNodup
    have hfold : update_quest_progress st qtype amount none
        = l₂.foldl (stepQuest qtype amount none)
            (stepQuest qtype amount none (l₁.foldl (stepQuest qtype amount none) st) q) := by
      unfold update_quest_progress
      rw [hsplit, List.foldl_append, List.foldl_cons]
    set stA := l₁.foldl (stepQuest qtype amount none) st with hstA
    have hqA : q ∈ stA.active := foldl_stepQuest_survive qtype amount none q l₁ st hq h1
    have hmapmem : bumpQuest amount q
        ∈ stA.active.map (fun r => if r.id = q.id then bumpQuest amount q else r) := by
      have := List.mem_map_of_mem (fun r => if r.id = q.id then bumpQuest amount q else r) hqA
      simpa using this
    rw [hfold]
    by_cases hc : (bumpQuest amount q).target ≤ (bumpQuest amount q).progress
    · have hstep : stepQuest qtype amount none stA q
          = complete_quest
              { stA with active :=
                  (stA.active.map (fun r => if r.id = q.id then bumpQuest amount q else r)) }
              (bumpQuest amount q) := by
        unfold stepQuest
        rw [if_pos hsel, if_pos hc]
      have hmem : bumpQuest amount q ∈ (stepQuest qtype amount none stA q).completed := by
        rw [hstep]
        unfold complete_quest
        split
        · next hg => exact hg
        · exact List.mem_append_right _ (List.mem_singleton.mpr rfl)
      exact Or.inr
        (foldl_stepQuest_completed_mono qtype amount none (bumpQuest amount q) l₂ _ hmem)
    · have hstep : stepQuest qtype amount none stA q
          = { stA with active :=
              (stA.active.map (fun r => if r.id = q.id then bumpQuest amount q else r)) } := by
        unfold stepQuest
        rw [if_pos hsel, if_neg hc]
      have hmem : bumpQuest amount q ∈ (stepQuest qtype amount none stA q).active := by
        rw [hstep]
        exact hmapmem
      refine Or.inl (foldl_stepQuest_survive qtype amount none (bumpQuest amount q) l₂ _ hmem ?_)
      intro r hr
      rw [bumpQuest_id]
      exact h2 r hr

/-- The topic-scoped study quest of the C10 witness scenario
(`target_topic = 3`). -/
def questC10 : Quest :=
  { id := "topic_study", title := "Study Topic 3",
    description := "Review study material for the weakest topic",
    qtype := "study", target := 1, progress := 0, xpReward := 15,
    targetTopic := some 3, isWeekly := false, generatedDate := 0 }

/-- The quest state of the C10 witness scenario. -/
def stC10 : QuestState := { active := [questC10], completed := [], awards := [] }

/-- Witness for C10: with `topic = None`, the topic-scoped study quest is
incremented (and, reaching its target, completed). -/
theorem update_quest_progress_no_topic_witness :
    (∀ q : Quest, questSelected "study" none q = decide (q.qtype = "study")) ∧
    (∀ (topic : Option ℕ) (q : Quest), questSelected "study" topic q = false ↔
        (q.qtype ≠ "study" ∨ (truthyOpt topic = true ∧ truthyOpt q.targetTopic = true ∧
          q.targetTopic ≠ topic))) ∧
    (∀ q ∈ stC10.active, q.qtype = "study" →
        bumpQuest 1 q ∈ (update_quest_progress stC10 "study" 1 none).active ∨
        bumpQuest 1 q ∈ (update_quest_progress stC10 "study" 1 none).completed) :=
  update_quest_progress_no_topic stC10 "study" 1 (by simp [stC10])

end AiLearningApp
